import Mathlib

/-!
Verification of the encoding layer of a fast RNA secondary-structure
prediction heuristic (rafft). The development shallowly embeds the data
model and operations of the encoding module: nucleotide-to-vector
encoding with base-pair weights, wraparound subsequences, the
lag-window scan with its run-score accumulation, and the ViennaRNA-style
pair table with its insertion operation. Machine floats (f64 weights and
scores) are modelled as rationals; panics are modelled as Option/Except
failure values.
-/

set_option maxRecDepth 4000

namespace Rafft

/-- Weights of the three legal base-pair types (fields AU, GC, GU of the
BasePairWeights struct). The f64 fields are modelled as rationals. -/
structure BasePairWeights where
  AU : ℚ
  GC : ℚ
  GU : ℚ
deriving DecidableEq

/-- One column of a 4×N encoding matrix: the four nucleotide channels
(A, C, G, U) of a single sequence position. -/
abbrev Col := ℚ × ℚ × ℚ × ℚ

/-- Forward one-hot encoding of a nucleotide character, as in the Alphabet
module constants: A=(1,0,0,0), C=(0,1,0,0), G=(0,0,1,0), U=(0,0,0,1).
Only ever applied to valid characters (the caller matches first). -/
def forwardCol (c : Char) : Col :=
  if c = 'A' then (1, 0, 0, 0)
  else if c = 'C' then (0, 1, 0, 0)
  else if c = 'G' then (0, 0, 1, 0)
  else (0, 0, 0, 1)

/-- Mirrored encoding of a nucleotide character, as in MirrorAlphabet::new:
a=(0,0,0,AU), c=(0,0,GC,0), g=(0,GC,0,GU), u=(AU,0,GU,0).
Only ever applied to valid characters (the caller matches first). -/
def mirrorCol (w : BasePairWeights) (c : Char) : Col :=
  if c = 'A' then (0, 0, 0, w.AU)
  else if c = 'C' then (0, 0, w.GC, 0)
  else if c = 'G' then (0, w.GC, 0, w.GU)
  else (w.AU, 0, w.GU, 0)

/-- Valid nucleotide characters accepted by the encoder. -/
def charValid (c : Char) : Bool :=
  c = 'A' || c = 'C' || c = 'G' || c = 'U'

/-- Error type of the encoding module: the InvalidNucleotide variant
carries the offending character. -/
inductive Error where
  | InvalidNucleotide (c : Char)
deriving DecidableEq

/-- Per-position encoding pass of with_basepair_weights: walk the
characters left to right (try_for_each), producing the forward and
mirrored column for each valid character and aborting with
InvalidNucleotide at the first invalid one. -/
def encodeCols (w : BasePairWeights) : List Char → Except Error (List (Col × Col))
  | [] => Except.ok []
  | c :: cs =>
    if charValid c then
      Except.map (fun rest => (forwardCol c, mirrorCol w c) :: rest) (encodeCols w cs)
    else
      Except.error (Error.InvalidNucleotide c)

/-- An EncodedSequence: forward and mirrored 4×N matrices (stored as lists
of columns) plus the optional concatenation site of a wraparound
subsequence. -/
structure EncodedSequence where
  forward : List Col
  mirrored : List Col
  concatenation_site : Option ℕ
deriving DecidableEq

/-- EncodedSequence::with_basepair_weights: encode a sequence, or fail with
the first invalid nucleotide. On success, both matrices hold the
per-position encodings in sequence order (no final reversal of the
mirrored matrix is performed) and the concatenation site is None. -/
def with_basepair_weights (sequence : List Char) (weights : BasePairWeights) :
    Except Error EncodedSequence :=
  match encodeCols weights sequence with
  | Except.error e => Except.error e
  | Except.ok cols =>
      Except.ok ⟨cols.map Prod.fst, cols.map Prod.snd, none⟩

/-- EncodedSequence::len — the number of columns of the forward matrix. -/
def EncodedSequence.len (es : EncodedSequence) : ℕ := es.forward.length

/-- Column selection along the position axis (ndarray select(Axis(1), indices)):
pick the listed columns in order. Out-of-range indices contribute nothing
(all uses in this development are in range). -/
def selectCols {α : Type} (m : List α) (indices : List ℕ) : List α :=
  indices.filterMap (fun i => m[i]?)

/-- EncodedSequence::subsequence with half-open 0-indexed range semantics.
For start < stop, a contiguous slice of columns [start, stop) with no
concatenation site; otherwise the wraparound concatenation of columns
[start, len) with columns [0, stop), with concatenation site start. -/
def EncodedSequence.subsequence (es : EncodedSequence) (start stop : ℕ) : EncodedSequence :=
  if start < stop then
    { forward := selectCols es.forward (List.range' start (stop - start))
      mirrored := selectCols es.mirrored (List.range' start (stop - start))
      concatenation_site := none }
  else
    { forward := selectCols es.forward (List.range' start (es.len - start) ++ List.range stop)
      mirrored := selectCols es.mirrored (List.range' start (es.len - start) ++ List.range stop)
      concatenation_site := some start }

/-- Pointwise product of two columns summed over the four channels
(the element-wise array product followed by sum_axis(Axis(0))). -/
def dotCol (x y : Col) : ℚ :=
  x.1 * y.1 + x.2.1 * y.2.1 + x.2.2.1 * y.2.2.1 + x.2.2.2 * y.2.2.2

/-- Slicing step of consecutive_pairs_at_lag: for positional_lag < len the
columns [0, lag] of forward and the same columns of mirrored in reverse
order; otherwise the tail windows [lag - len + 1, len) of both, again
order-reversed for mirrored. Returns none when a slice bound exceeds an
array length (an out-of-bounds ndarray slice panics). -/
def EncodedSequence.lagSlices (es : EncodedSequence) (positional_lag : ℕ) :
    Option (List Col × List Col) :=
  if positional_lag < es.len then
    if positional_lag < es.mirrored.length then
      some (es.forward.take (positional_lag + 1),
            (es.mirrored.take (positional_lag + 1)).reverse)
    else none
  else
    if positional_lag - es.len + 1 ≤ es.forward.length ∧
        positional_lag - es.len + 1 ≤ es.mirrored.length then
      some (es.forward.drop (positional_lag - es.len + 1),
            (es.mirrored.drop (positional_lag - es.len + 1)).reverse)
    else none

/-- Raw per-position pairing scores of consecutive_pairs_at_lag: the
pointwise product of the first halves (rounded up) of the offset-aligned
slices, summed over the four channels. -/
def EncodedSequence.rawScores (es : EncodedSequence) (positional_lag : ℕ) :
    Option (List ℚ) :=
  (es.lagSlices positional_lag).map (fun p =>
    let halved := p.1.length / 2 + p.1.length % 2
    List.zipWith dotCol (p.1.take halved) (p.2.take halved))

/-- Tail of the in-place accumulation accumulate_axis_inplace with closure
curr := curr * (prev + curr), where prev is the already-updated
predecessor. -/
def accAux (prev : ℚ) : List ℚ → List ℚ
  | [] => []
  | x :: xs => (prev + x) * x :: accAux ((prev + x) * x) xs

/-- Accumulation of raw scores into run scores: the first element is kept,
and each later element x with updated predecessor p becomes (p + x) * x. -/
def accumulateScores : List ℚ → List ℚ
  | [] => []
  | x :: xs => x :: accAux x xs

/-- Accumulated run scores of consecutive_pairs_at_lag. -/
def EncodedSequence.accumulatedScores (es : EncodedSequence) (positional_lag : ℕ) :
    Option (List ℚ) :=
  (es.rawScores positional_lag).map accumulateScores

/-- EncodedSequence::consecutive_pairs_at_lag: computes the sliced windows,
the raw pairing scores and their accumulation, then returns the literal
quadruple (0, 0, 0, 0) — the extraction of the best run is not
implemented in the source. A none result models a panic during slicing. -/
def EncodedSequence.consecutive_pairs_at_lag (es : EncodedSequence) (positional_lag : ℕ) :
    Option (ℕ × ℕ × ℕ × ℕ) :=
  (es.accumulatedScores positional_lag).map (fun _ => (0, 0, 0, 0))

/-- Modelled from the spec (for comparison with the source behaviour):
the claimed mirrored matrix of C2, i.e. the per-position mirror encoding
reversed along the position axis as a single final step. -/
def specReversedMirrored (w : BasePairWeights) (s : List Char) : List Col :=
  (s.map (mirrorCol w)).reverse

/-- A ViennaRNA-style pair table: a 1-indexed array of i16 (modelled as ℤ)
whose slot 0 stores the structure length. -/
structure PairTable where
  table : List ℤ
deriving DecidableEq

/-- PairTable::new: slot 0 is the length (an i16, so lengths above 32767
make the try_into().unwrap() panic, modelled as none) and slots 1..=length
are 0 (unpaired). -/
def PairTable.new (length : ℕ) : Option PairTable :=
  if length ≤ 32767 then
    some ⟨(length : ℤ) :: List.replicate length 0⟩
  else none

/-- Slot k of a pair table. -/
def PairTable.entry (pt : PairTable) (k : ℕ) : ℤ := pt.table.getD k 0

/-- PairTable::len — slot 0 interpreted as a length. -/
def PairTable.len (pt : PairTable) : ℕ := (pt.entry 0).toNat

/-- PairTable::insert: asserts 0 < i ≤ len, 0 < j ≤ len, i ≠ j and that
both positions are unpaired, then writes table[i] := j and table[j] := i.
A failed assertion panics before any write, modelled as none. -/
def PairTable.insert (pt : PairTable) (i j : ℤ) : Option PairTable :=
  if 0 < i ∧ i ≤ (pt.len : ℤ) ∧ 0 < j ∧ j ≤ (pt.len : ℤ) ∧ i ≠ j ∧
      pt.entry i.toNat = 0 ∧ pt.entry j.toNat = 0 then
    some ⟨(pt.table.set i.toNat j).set j.toNat i⟩
  else none

/-- Pair tables reachable from PairTable::new by successful insert calls. -/
inductive PairTable.Reached : PairTable → Prop
  | base (n : ℕ) (pt : PairTable) : PairTable.new n = some pt → PairTable.Reached pt
  | step (pt pt' : PairTable) (i j : ℤ) :
      PairTable.Reached pt → pt.insert i j = some pt' → PairTable.Reached pt'

/-! Helper lemmas about the encoding pass. -/

theorem encodeCols_ok_of_valid (w : BasePairWeights) (s : List Char)
    (h : ∀ c ∈ s, charValid c = true) :
    encodeCols w s = Except.ok (s.map (fun c => (forwardCol c, mirrorCol w c))) := by
  induction s with
  | nil => rfl
  | cons c cs ih =>
      have hc : charValid c = true := h c (List.mem_cons_self c cs)
      have hcs : ∀ x ∈ cs, charValid x = true := fun x hx => h x (List.mem_cons_of_mem c hx)
      simp [encodeCols, hc, ih hcs, Except.map]

theorem encodeCols_ok_elim (w : BasePairWeights) (s : List Char) (l : List (Col × Col))
    (h : encodeCols w s = Except.ok l) :
    (∀ c ∈ s, charValid c = true)
      ∧ l = s.map (fun c => (forwardCol c, mirrorCol w c)) := by
  induction s generalizing l with
  | nil =>
      simp only [encodeCols] at h
      injection h with h
      subst h
      exact ⟨by simp, rfl⟩
  | cons c cs ih =>
      by_cases hc : charValid c = true
      · rw [encodeCols, if_pos hc] at h
        cases hcs : encodeCols w cs with
        | error e => rw [hcs] at h; simp [Except.map] at h
        | ok l2 =>
            rw [hcs] at h
            simp only [Except.map] at h
            injection h with h
            obtain ⟨hv, hl⟩ := ih l2 hcs
            subst hl
            refine ⟨?_, by rw [← h]; simp⟩
            intro x hx
            rcases List.mem_cons.mp hx with hx | hx
            · exact hx ▸ hc
            · exact hv x hx
      · rw [encodeCols, if_neg hc] at h
        simp at h

theorem encodeCols_error_elim (w : BasePairWeights) (s : List Char) (c : Char)
    (h : encodeCols w s = Except.error (Error.InvalidNucleotide c)) :
    c ∈ s ∧ charValid c = false := by
  induction s with
  | nil => simp [encodeCols] at h
  | cons d ds ih =>
      by_cases hd : charValid d = true
      · rw [encodeCols, if_pos hd] at h
        cases hds : encodeCols w ds with
        | error e =>
            rw [hds] at h
            simp only [Except.map] at h
            injection h with h
            subst h
            obtain ⟨hm, hv⟩ := ih hds
            exact ⟨List.mem_cons_of_mem d hm, hv⟩
        | ok l2 => rw [hds] at h; simp [Except.map] at h
      · rw [encodeCols, if_neg hd] at h
        injection h with h
        injection h with h
        subst h
        exact ⟨List.mem_cons_self d ds, Bool.eq_false_iff.mpr (fun hv => hd hv)⟩

theorem wbw_ok_elim (w : BasePairWeights) (s : List Char) (es : EncodedSequence)
    (h : with_basepair_weights s w = Except.ok es) :
    (∀ c ∈ s, charValid c = true)
      ∧ es.forward = s.map forwardCol
      ∧ es.mirrored = s.map (mirrorCol w)
      ∧ es.concatenation_site = none := by
  unfold with_basepair_weights at h
  cases hc : encodeCols w s with
  | error e => rw [hc] at h; simp at h
  | ok cols =>
      rw [hc] at h
      injection h with h
      obtain ⟨hv, hcols⟩ := encodeCols_ok_elim w s cols hc
      subst hcols
      subst h
      refine ⟨hv, ?_, ?_, rfl⟩ <;> simp [List.map_map, Function.comp]

theorem wbw_ok_of_valid (w : BasePairWeights) (s : List Char)
    (h : ∀ c ∈ s, charValid c = true) :
    with_basepair_weights s w
      = Except.ok ⟨s.map forwardCol, s.map (mirrorCol w), none⟩ := by
  unfold with_basepair_weights
  rw [encodeCols_ok_of_valid w s h]
  simp [List.map_map, Function.comp]

/-! Helper lemmas about column selection. -/

theorem selectCols_append {α : Type} (m : List α) (is js : List ℕ) :
    selectCols m (is ++ js) = selectCols m is ++ selectCols m js :=
  List.filterMap_append _ _ _

theorem selectCols_map {α β : Type} (g : α → β) (m : List α) (is : List ℕ) :
    selectCols (m.map g) is = (selectCols m is).map g := by
  unfold selectCols
  rw [List.map_filterMap]
  congr 1
  funext i
  rw [List.getElem?_map]

theorem selectCols_range' {α : Type} (m : List α) (a b : ℕ) (h : a + b ≤ m.length) :
    selectCols m (List.range' a b) = (m.drop a).take b := by
  induction b generalizing a with
  | zero => simp [selectCols]
  | succ b ih =>
      rw [List.range'_succ]
      have ha : a < m.length := by omega
      simp only [selectCols, List.filterMap_cons]
      rw [List.getElem?_eq_getElem ha]
      rw [List.drop_eq_getElem_cons ha, List.take_succ_cons]
      rw [← ih (a + 1) (by omega)]
      rfl

theorem selectCols_range {α : Type} (m : List α) (n : ℕ) (h : n ≤ m.length) :
    selectCols m (List.range n) = m.take n := by
  rw [List.range_eq_range', selectCols_range' m 0 n (by omega), List.drop_zero]

/-! Helper lemmas about the run-score accumulation. -/

theorem accAux_length (p : ℚ) (l : List ℚ) : (accAux p l).length = l.length := by
  induction l generalizing p with
  | nil => rfl
  | cons x xs ih => simp [accAux, ih]

theorem accumulateScores_length (l : List ℚ) : (accumulateScores l).length = l.length := by
  cases l with
  | nil => rfl
  | cons x xs => simp [accumulateScores, accAux_length]

theorem accAux_getD_zero_of_zero (p : ℚ) (l : List ℚ) (i : ℕ) (h : l.getD i 0 = 0) :
    (accAux p l).getD i 0 = 0 := by
  induction l generalizing p i with
  | nil => simp [accAux]
  | cons x xs ih =>
      cases i with
      | zero =>
          rw [List.getD_cons_zero] at h
          simp [accAux, h]
      | succ i =>
          rw [List.getD_cons_succ] at h
          simp only [accAux, List.getD_cons_succ]
          exact ih _ i h

theorem accAux_getD_succ (l : List ℚ) (p : ℚ) (i : ℕ) (h : i + 1 < l.length) :
    (accAux p l).getD (i + 1) 0
      = ((accAux p l).getD i 0 + l.getD (i + 1) 0) * l.getD (i + 1) 0 := by
  induction l generalizing p i with
  | nil => simp at h
  | cons x xs ih =>
      cases i with
      | zero =>
          cases xs with
          | nil => simp at h
          | cons y ys =>
              simp [accAux, List.getD_cons_zero, List.getD_cons_succ]
      | succ i =>
          have h2 : i + 1 < xs.length := by
            simp only [List.length_cons] at h
            omega
          simp only [accAux, List.getD_cons_succ]
          exact ih _ i h2

theorem accumulateScores_getD_succ (l : List ℚ) (i : ℕ) (h : i + 1 < l.length) :
    (accumulateScores l).getD (i + 1) 0
      = ((accumulateScores l).getD i 0 + l.getD (i + 1) 0) * l.getD (i + 1) 0 := by
  cases l with
  | nil => simp at h
  | cons x xs =>
      cases i with
      | zero =>
          cases xs with
          | nil => simp at h
          | cons y ys =>
              simp [accumulateScores, accAux, List.getD_cons_zero, List.getD_cons_succ]
      | succ i =>
          have h2 : i + 1 < xs.length := by
            simp only [List.length_cons] at h
            omega
          simp only [accumulateScores, List.getD_cons_succ]
          exact accAux_getD_succ xs x i h2

theorem accumulateScores_getD_zero_of_zero (l : List ℚ) (i : ℕ) (h : l.getD i 0 = 0) :
    (accumulateScores l).getD i 0 = 0 := by
  cases l with
  | nil => simp [accumulateScores]
  | cons x xs =>
      cases i with
      | zero =>
          rw [List.getD_cons_zero] at h
          simp [accumulateScores, h]
      | succ i =>
          rw [List.getD_cons_succ] at h
          simp only [accumulateScores, List.getD_cons_succ]
          exact accAux_getD_zero_of_zero x xs i h

/-! Helper lemmas about list updates and the pair-table invariant. -/

theorem getD_set_self (l : List ℤ) (n : ℕ) (v : ℤ) (h : n < l.length) :
    (l.set n v).getD n 0 = v := by
  rw [List.getD_eq_getElem?_getD, List.getElem?_set]
  simp [h]

theorem getD_set_of_ne (l : List ℤ) (m n : ℕ) (v : ℤ) (h : m ≠ n) :
    (l.set m v).getD n 0 = l.getD n 0 := by
  rw [List.getD_eq_getElem?_getD, List.getElem?_set_ne h, ← List.getD_eq_getElem?_getD]

theorem pairTable_new_elim (n : ℕ) (pt : PairTable) (h : PairTable.new n = some pt) :
    pt.table = (n : ℤ) :: List.replicate n 0 ∧ pt.len = n ∧ n ≤ 32767 := by
  unfold PairTable.new at h
  split at h
  case isTrue hle =>
      injection h with h
      subst h
      refine ⟨rfl, ?_, hle⟩
      simp [PairTable.len, PairTable.entry, List.getD_cons_zero]
  case isFalse => cases h

theorem pairTable_new_entry_pos (n : ℕ) (pt : PairTable) (h : PairTable.new n = some pt)
    (k : ℕ) (h1 : 1 ≤ k) : pt.entry k = 0 := by
  obtain ⟨ht, -, -⟩ := pairTable_new_elim n pt h
  obtain ⟨k, rfl⟩ : ∃ m, k = m + 1 := ⟨k - 1, by omega⟩
  unfold PairTable.entry
  rw [ht, List.getD_cons_succ, List.getD_eq_getElem?_getD, List.getElem?_replicate]
  split <;> rfl

/-- Inductive invariant of reachable pair tables: the backing array has
length len + 1, every body slot holds a value in [0, len] different from
its own index, and pairing is symmetric. -/
def PairTable.Inv (pt : PairTable) : Prop :=
  pt.table.length = pt.len + 1 ∧
  (∀ k, 1 ≤ k → k ≤ pt.len →
      0 ≤ pt.entry k ∧ pt.entry k ≤ (pt.len : ℤ) ∧ pt.entry k ≠ (k : ℤ)) ∧
  (∀ k, 1 ≤ k → k ≤ pt.len → pt.entry k ≠ 0 →
      pt.entry (pt.entry k).toNat = (k : ℤ))

theorem pairTable_new_inv (n : ℕ) (pt : PairTable) (h : PairTable.new n = some pt) :
    PairTable.Inv pt := by
  obtain ⟨ht, hlen, -⟩ := pairTable_new_elim n pt h
  refine ⟨by rw [ht, hlen]; simp, ?_, ?_⟩
  · intro k h1 h2
    rw [pairTable_new_entry_pos n pt h k h1]
    refine ⟨le_refl 0, by positivity, ?_⟩
    intro hk
    have : (1 : ℤ) ≤ (k : ℤ) := by exact_mod_cast h1
    omega
  · intro k h1 h2 h3
    exact absurd (pairTable_new_entry_pos n pt h k h1) h3

theorem pairTable_insert_elim (pt pt' : PairTable) (i j : ℤ)
    (h : pt.insert i j = some pt') :
    (0 < i ∧ i ≤ (pt.len : ℤ) ∧ 0 < j ∧ j ≤ (pt.len : ℤ) ∧ i ≠ j ∧
        pt.entry i.toNat = 0 ∧ pt.entry j.toNat = 0)
      ∧ pt'.table = (pt.table.set i.toNat j).set j.toNat i := by
  unfold PairTable.insert at h
  split at h
  case isTrue hc =>
      injection h with h
      subst h
      exact ⟨hc, rfl⟩
  case isFalse => cases h

theorem pairTable_insert_inv (pt pt' : PairTable) (i j : ℤ)
    (hInv : PairTable.Inv pt) (h : pt.insert i j = some pt') : PairTable.Inv pt' := by
  obtain ⟨⟨hi0, hilen, hj0, hjlen, hij, hei, hej⟩, htab⟩ := pairTable_insert_elim pt pt' i j h
  obtain ⟨hlen, hbounds, hsym⟩ := hInv
  have hai : ((i.toNat : ℤ)) = i := Int.toNat_of_nonneg (le_of_lt hi0)
  have hbj : ((j.toNat : ℤ)) = j := Int.toNat_of_nonneg (le_of_lt hj0)
  have ha1 : 1 ≤ i.toNat := by omega
  have hb1 : 1 ≤ j.toNat := by omega
  have halen : i.toNat ≤ pt.len := by omega
  have hblen : j.toNat ≤ pt.len := by omega
  have hab : i.toNat ≠ j.toNat := by
    intro e
    apply hij
    rw [← hai, ← hbj, e]
  have haL : i.toNat < pt.table.length := by omega
  have hbL : j.toNat < (pt.table.set i.toNat j).length := by
    rw [List.length_set]; omega
  have e0 : pt'.entry 0 = pt.entry 0 := by
    unfold PairTable.entry
    rw [htab, getD_set_of_ne _ _ _ _ (by omega), getD_set_of_ne _ _ _ _ (by omega)]
  have elen : pt'.len = pt.len := by
    unfold PairTable.len
    rw [e0]
  have ea : pt'.entry i.toNat = j := by
    unfold PairTable.entry
    rw [htab, getD_set_of_ne _ _ _ _ (fun e => hab e.symm), getD_set_self _ _ _ haL]
  have eb : pt'.entry j.toNat = i := by
    unfold PairTable.entry
    rw [htab, getD_set_self _ _ _ hbL]
  have ek : ∀ k, k ≠ i.toNat → k ≠ j.toNat → pt'.entry k = pt.entry k := by
    intro k hka hkb
    unfold PairTable.entry
    rw [htab, getD_set_of_ne _ _ _ _ (fun e => hkb e.symm),
      getD_set_of_ne _ _ _ _ (fun e => hka e.symm)]
  refine ⟨?_, ?_, ?_⟩
  · rw [htab, List.length_set, List.length_set, elen, hlen]
  · intro k h1 h2
    rw [elen] at h2 ⊢
    by_cases hka : k = i.toNat
    · subst hka
      rw [ea]
      refine ⟨le_of_lt hj0, hjlen, ?_⟩
      rw [hai]
      exact fun e => hij e.symm
    · by_cases hkb : k = j.toNat
      · subst hkb
        rw [eb]
        refine ⟨le_of_lt hi0, hilen, ?_⟩
        rw [hbj]
        exact hij
      · rw [ek k hka hkb]
        exact hbounds k h1 h2
  · intro k h1 h2 h3
    rw [elen] at h2
    by_cases hka : k = i.toNat
    · subst hka
      rw [ea, eb]
      rw [hai]
    · by_cases hkb : k = j.toNat
      · subst hkb
        rw [eb, ea]
        rw [hbj]
      · rw [ek k hka hkb] at h3 ⊢
        have hmem := hbounds k h1 h2
        have hm1 : 1 ≤ (pt.entry k).toNat := by omega
        have hmlen : (pt.entry k).toNat ≤ pt.len := by omega
        have hma : (pt.entry k).toNat ≠ i.toNat := by
          intro e
          have := hsym k h1 h2 h3
          rw [e] at this
          rw [hei] at this
          have : (1 : ℤ) ≤ (k : ℤ) := by exact_mod_cast h1
          omega
        have hmb : (pt.entry k).toNat ≠ j.toNat := by
          intro e
          have := hsym k h1 h2 h3
          rw [e] at this
          rw [hej] at this
          have : (1 : ℤ) ≤ (k : ℤ) := by exact_mod_cast h1
          omega
        rw [ek _ hma hmb]
        exact hsym k h1 h2 h3

theorem pairTable_reached_inv (pt : PairTable) (h : PairTable.Reached pt) :
    PairTable.Inv pt := by
  induction h with
  | base n pt hpt => exact pairTable_new_inv n pt hpt
  | step pt pt' i j hr hins ih => exact pairTable_insert_inv pt pt' i j ih hins

/-! Concrete instances used for evaluations and witnesses. -/

/-- The default weights of the fold configuration: AU=2, GC=3, GU=1. -/
def bpw0 : BasePairWeights := ⟨2, 3, 1⟩

/-- The sequence GGGAAACCC, which folds into an obvious 3-pair hairpin. -/
def seqDemo : List Char := ['G', 'G', 'G', 'A', 'A', 'A', 'C', 'C', 'C']

/-- The encoding of GGGAAACCC with weights bpw0. -/
def esDemo : EncodedSequence :=
  ⟨[(0,0,1,0), (0,0,1,0), (0,0,1,0), (1,0,0,0), (1,0,0,0), (1,0,0,0),
      (0,1,0,0), (0,1,0,0), (0,1,0,0)],
    [(0,3,0,1), (0,3,0,1), (0,3,0,1), (0,0,0,2), (0,0,0,2), (0,0,0,2),
      (0,0,3,0), (0,0,3,0), (0,0,3,0)],
    none⟩

/-- The length-14 sequence UGCGGUGUAAGUGC of the spec scenario and of the
test_consecutivepairs test. -/
def seq14 : List Char :=
  ['U', 'G', 'C', 'G', 'G', 'U', 'G', 'U', 'A', 'A', 'G', 'U', 'G', 'C']

/-- The encoding of UGCGGUGUAAGUGC with weights bpw0. -/
def es14 : EncodedSequence :=
  ⟨[(0,0,0,1), (0,0,1,0), (0,1,0,0), (0,0,1,0), (0,0,1,0), (0,0,0,1),
      (0,0,1,0), (0,0,0,1), (1,0,0,0), (1,0,0,0), (0,0,1,0), (0,0,0,1),
      (0,0,1,0), (0,1,0,0)],
    [(2,0,1,0), (0,3,0,1), (0,0,3,0), (0,3,0,1), (0,3,0,1), (2,0,1,0),
      (0,3,0,1), (2,0,1,0), (0,0,0,2), (0,0,0,2), (0,3,0,1), (2,0,1,0),
      (0,3,0,1), (0,0,3,0)],
    none⟩

/-- The short sequence GAU. -/
def seqGAU : List Char := ['G', 'A', 'U']

/-- The encoding of GAU with weights bpw0. -/
def esGAU : EncodedSequence :=
  ⟨[(0,0,1,0), (1,0,0,0), (0,0,0,1)],
    [(0,3,0,1), (0,0,0,2), (2,0,1,0)],
    none⟩

theorem wbw_seqDemo : with_basepair_weights seqDemo bpw0 = Except.ok esDemo := by rfl

theorem wbw_seq14 : with_basepair_weights seq14 bpw0 = Except.ok es14 := by rfl

theorem wbw_seqGAU : with_basepair_weights seqGAU bpw0 = Except.ok esGAU := by rfl

theorem esDemo_rawScores : esDemo.rawScores 8 = some [3, 3, 3, 0, 0] := by
  norm_num [esDemo, EncodedSequence.rawScores, EncodedSequence.lagSlices,
    EncodedSequence.len, dotCol]

theorem esDemo_accumulatedScores :
    esDemo.accumulatedScores 8 = some [3, 18, 63, 0, 0] := by
  unfold EncodedSequence.accumulatedScores
  rw [esDemo_rawScores]
  norm_num [accumulateScores, accAux]

/-! Claim theorems. -/

/-- Claim C1: consecutive_pairs_at_lag is claimed to return the quadruple
(pair count, first paired position of each strand, aggregate score) of the
best run at the given lag. The code contradicts this claim and its own doc
comment: on the encoding of GGGAAACCC at lag 8 the accumulated run scores
are [3, 18, 63, 0, 0], identifying a 3-pair run of score 63, yet the
function unconditionally returns the placeholder quadruple (0, 0, 0, 0). -/
theorem claim_C1_code_bug :
    with_basepair_weights seqDemo bpw0 = Except.ok esDemo
    ∧ esDemo.rawScores 8 = some [3, 3, 3, 0, 0]
    ∧ esDemo.accumulatedScores 8 = some [3, 18, 63, 0, 0]
    ∧ esDemo.consecutive_pairs_at_lag 8 = some (0, 0, 0, 0) := by
  refine ⟨wbw_seqDemo, esDemo_rawScores, esDemo_accumulatedScores, ?_⟩
  unfold EncodedSequence.consecutive_pairs_at_lag
  rw [esDemo_accumulatedScores]
  rfl

/-- Claim C2, counterexample: the claim states that the mirrored matrix of
with_basepair_weights is reversed along the position axis as a final step
(mirrored column 0 corresponding to the last forward position). On the
input AG, the returned mirrored matrix is the per-position mirror encoding
in forward order, which differs from the reversed matrix the claim
describes (modelled by specReversedMirrored). -/
theorem claim_C2_counterexample :
    with_basepair_weights ['A', 'G'] bpw0
      = Except.ok ⟨[(1,0,0,0), (0,0,1,0)], [(0,0,0,2), (0,3,0,1)], none⟩
    ∧ specReversedMirrored bpw0 ['A', 'G'] = [(0,3,0,1), (0,0,0,2)]
    ∧ ([(0,0,0,2), (0,3,0,1)] : List Col) ≠ [(0,3,0,1), (0,0,0,2)] :=
  ⟨by rfl, by rfl, by decide⟩

/-- Claim C2 (amended): after per-position encoding, the mirrored matrix of
the returned EncodedSequence is stored in the same position order as the
forward matrix — column i is the mirror encoding of character i and no
final reversal is performed; the order reversal instead happens when
consecutive_pairs_at_lag slices the mirrored matrix. -/
theorem claim_C2_amended (w : BasePairWeights) (s : List Char) (es : EncodedSequence)
    (h : with_basepair_weights s w = Except.ok es) :
    es.mirrored = s.map (mirrorCol w)
    ∧ es.forward = s.map forwardCol
    ∧ es.mirrored.length = es.forward.length := by
  obtain ⟨-, hf, hm, -⟩ := wbw_ok_elim w s es h
  exact ⟨hm, hf, by rw [hf, hm]; simp⟩

theorem claim_C2_amended_witness :
    esGAU.mirrored = seqGAU.map (mirrorCol bpw0)
    ∧ esGAU.forward = seqGAU.map forwardCol
    ∧ esGAU.mirrored.length = esGAU.forward.length :=
  claim_C2_amended bpw0 seqGAU esGAU wbw_seqGAU

/-- Claim C3: for a successfully encoded sequence S of length N and indices
0 ≤ stop ≤ start ≤ N, subsequence(start, stop) equals the encoding of
S[start:] ++ S[:stop] column-for-column in both matrices, its concatenation
site is start, and for start = stop the result wraps the entire sequence
(length N, never empty). -/
theorem claim_C3 (w : BasePairWeights) (s : List Char) (es : EncodedSequence)
    (h : with_basepair_weights s w = Except.ok es)
    (start stop : ℕ) (h1 : stop ≤ start) (h2 : start ≤ s.length) :
    ∃ es2 : EncodedSequence,
      with_basepair_weights (s.drop start ++ s.take stop) w = Except.ok es2
      ∧ (es.subsequence start stop).forward = es2.forward
      ∧ (es.subsequence start stop).mirrored = es2.mirrored
      ∧ (es.subsequence start stop).concatenation_site = some start
      ∧ (start = stop → (es.subsequence start stop).forward.length = s.length) := by
  obtain ⟨hv, hf, hm, -⟩ := wbw_ok_elim w s es h
  have hvsub : ∀ c ∈ s.drop start ++ s.take stop, charValid c = true := by
    intro c hc
    rcases List.mem_append.mp hc with hc | hc
    · exact hv c (List.mem_of_mem_drop hc)
    · exact hv c (List.mem_of_mem_take hc)
  have hlen : es.len = s.length := by
    unfold EncodedSequence.len
    rw [hf, List.length_map]
  have hns : ¬ start < stop := by omega
  have hsel : ∀ g : Char → Col,
      selectCols (s.map g) (List.range' start (s.length - start) ++ List.range stop)
        = (s.drop start ++ s.take stop).map g := by
    intro g
    rw [selectCols_append, selectCols_map, selectCols_map,
      selectCols_range' s start (s.length - start) (by omega),
      selectCols_range s stop (by omega), List.map_append]
    congr 2
    exact List.take_of_length_le (by rw [List.length_drop])
  refine ⟨⟨(s.drop start ++ s.take stop).map forwardCol,
      (s.drop start ++ s.take stop).map (mirrorCol w), none⟩,
    wbw_ok_of_valid w _ hvsub, ?_, ?_, ?_, ?_⟩
  · show (es.subsequence start stop).forward = _
    unfold EncodedSequence.subsequence
    rw [if_neg hns]
    show selectCols es.forward (List.range' start (es.len - start) ++ List.range stop) = _
    rw [hlen, hf, hsel forwardCol]
  · show (es.subsequence start stop).mirrored = _
    unfold EncodedSequence.subsequence
    rw [if_neg hns]
    show selectCols es.mirrored (List.range' start (es.len - start) ++ List.range stop) = _
    rw [hlen, hm, hsel (mirrorCol w)]
  · unfold EncodedSequence.subsequence
    rw [if_neg hns]
  · intro he
    unfold EncodedSequence.subsequence
    rw [if_neg hns]
    show (selectCols es.forward
        (List.range' start (es.len - start) ++ List.range stop)).length = s.length
    rw [hlen, hf, hsel forwardCol, List.length_map, List.length_append,
      List.length_drop, List.length_take, Nat.min_eq_left (by omega : stop ≤ s.length)]
    omega

theorem claim_C3_witness :
    ∃ es2 : EncodedSequence,
      with_basepair_weights (seqGAU.drop 2 ++ seqGAU.take 1) bpw0 = Except.ok es2
      ∧ (esGAU.subsequence 2 1).forward = es2.forward
      ∧ (esGAU.subsequence 2 1).mirrored = es2.mirrored
      ∧ (esGAU.subsequence 2 1).concatenation_site = some 2
      ∧ (2 = 1 → (esGAU.subsequence 2 1).forward.length = seqGAU.length) :=
  claim_C3 bpw0 seqGAU esGAU wbw_seqGAU 2 1 (by decide) (by decide)

/-- Claim C4: in consecutive_pairs_at_lag, each accumulated run score with
a predecessor equals (previous accumulated score + current raw score) times
the current raw score, so any position with zero raw pairing score has
accumulated score zero — a broken run collapses to zero from that point. -/
theorem claim_C4 (es : EncodedSequence) (lag : ℕ) (raw acc : List ℚ)
    (hraw : es.rawScores lag = some raw)
    (hacc : es.accumulatedScores lag = some acc) :
    (∀ i, i + 1 < raw.length →
        acc.getD (i + 1) 0
          = (acc.getD i 0 + raw.getD (i + 1) 0) * raw.getD (i + 1) 0)
    ∧ (∀ i, raw.getD i 0 = 0 → acc.getD i 0 = 0) := by
  have hacc2 : acc = accumulateScores raw := by
    unfold EncodedSequence.accumulatedScores at hacc
    rw [hraw] at hacc
    injection hacc with hacc
    exact hacc.symm
  subst hacc2
  exact ⟨fun i hi => accumulateScores_getD_succ raw i hi,
    fun i hz => accumulateScores_getD_zero_of_zero raw i hz⟩

theorem claim_C4_witness :
    ([3, 18, 63, 0, 0] : List ℚ).getD 1 0
      = (([3, 18, 63, 0, 0] : List ℚ).getD 0 0 + ([3, 3, 3, 0, 0] : List ℚ).getD 1 0)
          * ([3, 3, 3, 0, 0] : List ℚ).getD 1 0 :=
  (claim_C4 esDemo 8 [3, 3, 3, 0, 0] [3, 18, 63, 0, 0]
    esDemo_rawScores esDemo_accumulatedScores).1 0 (by decide)

/-- Claim C5, counterexample: the claim states that consecutive_pairs_at_lag
never panics, including at any lag beyond the fragment length. On the
encoded length-14 sequence UGCGGUGUAAGUGC, lag 28 places the slice start
at index 15, past the end of the 14-column arrays, and the call panics
(modelled as none) instead of returning a zero-pair result. -/
theorem claim_C5_counterexample :
    with_basepair_weights seq14 bpw0 = Except.ok es14
    ∧ es14.consecutive_pairs_at_lag 28 = none :=
  ⟨wbw_seq14, by rfl⟩

/-- Claim C5 (amended): for every encoded sequence (with matching matrix
lengths) and every lag below twice the fragment length — which covers all
lags the autocorrelation produces, including lags beyond the fragment
length — consecutive_pairs_at_lag returns the zero-pair result (0,0,0,0)
without panicking; for lags of at least twice the fragment length the
slice bound exceeds the array length and the call panics. -/
theorem claim_C5_amended (es : EncodedSequence) (lag : ℕ)
    (hlen : es.mirrored.length = es.forward.length) :
    (lag < 2 * es.len → es.consecutive_pairs_at_lag lag = some (0, 0, 0, 0))
    ∧ (2 * es.len ≤ lag → es.consecutive_pairs_at_lag lag = none) := by
  have hfl : es.len = es.forward.length := rfl
  unfold EncodedSequence.consecutive_pairs_at_lag EncodedSequence.accumulatedScores
    EncodedSequence.rawScores EncodedSequence.lagSlices
  constructor <;> intro hlag
  · by_cases h1 : lag < es.len
    · rw [if_pos h1, if_pos (by omega : lag < es.mirrored.length)]
      rfl
    · rw [if_neg h1, if_pos ⟨by omega, by omega⟩]
      rfl
  · have h1 : ¬ lag < es.len := by omega
    rw [if_neg h1, if_neg (by omega :
      ¬(lag - es.len + 1 ≤ es.forward.length ∧ lag - es.len + 1 ≤ es.mirrored.length))]
    rfl

theorem claim_C5_amended_witness :
    es14.consecutive_pairs_at_lag 21 = some (0, 0, 0, 0) :=
  (claim_C5_amended es14 21 (by rfl)).1 (by decide)

/-- Claim C6: with_basepair_weights succeeds exactly when every character
of the input is one of the uppercase nucleotides A, C, G, U; otherwise it
fails with an InvalidNucleotide error carrying an offending character of
the input and returns no EncodedSequence. -/
theorem claim_C6 (w : BasePairWeights) (s : List Char) :
    ((∃ es, with_basepair_weights s w = Except.ok es)
        ↔ ∀ c ∈ s, c = 'A' ∨ c = 'C' ∨ c = 'G' ∨ c = 'U')
    ∧ (∀ c, with_basepair_weights s w = Except.error (Error.InvalidNucleotide c) →
        c ∈ s ∧ ¬(c = 'A' ∨ c = 'C' ∨ c = 'G' ∨ c = 'U')) := by
  have hvalid : ∀ c : Char,
      charValid c = true ↔ (c = 'A' ∨ c = 'C' ∨ c = 'G' ∨ c = 'U') := by
    intro c
    simp [charValid, or_assoc]
  constructor
  · constructor
    · rintro ⟨es, hes⟩ c hc
      exact (hvalid c).mp ((wbw_ok_elim w s es hes).1 c hc)
    · intro hall
      exact ⟨_, wbw_ok_of_valid w s (fun c hc => (hvalid c).mpr (hall c hc))⟩
  · intro c hc
    unfold with_basepair_weights at hc
    cases he : encodeCols w s with
    | ok l => rw [he] at hc; simp at hc
    | error e =>
        rw [he] at hc
        injection hc with hc
        subst hc
        obtain ⟨hmem, hv⟩ := encodeCols_error_elim w s c he
        refine ⟨hmem, fun hcv => ?_⟩
        rw [(hvalid c).mpr hcv] at hv
        cases hv

theorem claim_C6_witness :
    'X' ∈ ['A', 'X'] ∧ ¬('X' = 'A' ∨ 'X' = 'C' ∨ 'X' = 'G' ∨ 'X' = 'U') :=
  (claim_C6 bpw0 ['A', 'X']).2 'X' (by rfl)

/-- Claim C7: after any sequence of successful insert calls starting from
PairTable::new, the table is symmetric — for every paired slot k,
table[table[k]] = k — and every position appears in at most one pair (the
partner map is injective on paired positions). -/
theorem claim_C7 (pt : PairTable) (h : PairTable.Reached pt) :
    (∀ k, 1 ≤ k → k ≤ pt.len → pt.entry k ≠ 0 →
        pt.entry (pt.entry k).toNat = (k : ℤ))
    ∧ (∀ k l, 1 ≤ k → k ≤ pt.len → 1 ≤ l → l ≤ pt.len →
        pt.entry k ≠ 0 → pt.entry k = pt.entry l → k = l) := by
  obtain ⟨hlen, hbounds, hsym⟩ := pairTable_reached_inv pt h
  refine ⟨hsym, ?_⟩
  intro k l h1 h2 h3 h4 h5 h6
  have hk := hsym k h1 h2 h5
  have h5l : pt.entry l ≠ 0 := by rw [← h6]; exact h5
  have hl := hsym l h3 h4 h5l
  rw [h6] at hk
  have : (k : ℤ) = (l : ℤ) := hk.symm.trans hl
  exact_mod_cast this

theorem claim_C7_witness :
    PairTable.entry ⟨[3, 3, 0, 1]⟩ (PairTable.entry ⟨[3, 3, 0, 1]⟩ 1).toNat = (1 : ℤ) :=
  (claim_C7 ⟨[3, 3, 0, 1]⟩
    (PairTable.Reached.step ⟨[3, 0, 0, 0]⟩ ⟨[3, 3, 0, 1]⟩ 1 3
      (PairTable.Reached.base 3 ⟨[3, 0, 0, 0]⟩ (by rfl)) (by rfl))).1
    1 (by decide) (by decide) (by decide)

/-- Claim C8: PairTable::insert fails fatally (modelled as none) exactly
when i = j, or i or j lies outside [1, length], or either position is
already paired; the source performs all assertions before any write, so a
failing call modifies no slot. -/
theorem claim_C8 (pt : PairTable) (i j : ℤ) :
    pt.insert i j = none ↔
      (i = j ∨ ¬(0 < i ∧ i ≤ (pt.len : ℤ)) ∨ ¬(0 < j ∧ j ≤ (pt.len : ℤ))
        ∨ pt.entry i.toNat ≠ 0 ∨ pt.entry j.toNat ≠ 0) := by
  by_cases hc : 0 < i ∧ i ≤ (pt.len : ℤ) ∧ 0 < j ∧ j ≤ (pt.len : ℤ) ∧ i ≠ j ∧
      pt.entry i.toNat = 0 ∧ pt.entry j.toNat = 0
  · unfold PairTable.insert
    rw [if_pos hc]
    obtain ⟨h1, h2, h3, h4, h5, h6, h7⟩ := hc
    simp [h1, h2, h3, h4, h5, h6, h7]
  · unfold PairTable.insert
    rw [if_neg hc]
    constructor
    · intro hnone
      by_contra hcon
      push_neg at hcon
      obtain ⟨hij, hi, hj, he1, he2⟩ := hcon
      exact hc ⟨hi.1, hi.2, hj.1, hj.2, hij, he1, he2⟩
    · intro hdisj
      rfl

theorem claim_C8_witness : PairTable.insert ⟨[1, 0]⟩ 1 1 = none :=
  (claim_C8 ⟨[1, 0]⟩ 1 1).mpr (Or.inl rfl)

/-- Claim C9: every successful insert call leaves slot 0 of the table
unchanged, so len() still returns the construction-time length. -/
theorem claim_C9 (pt pt' : PairTable) (i j : ℤ) (h : pt.insert i j = some pt') :
    pt'.entry 0 = pt.entry 0 ∧ pt'.len = pt.len := by
  obtain ⟨⟨hi0, -, hj0, -, -, -, -⟩, htab⟩ := pairTable_insert_elim pt pt' i j h
  have e0 : pt'.entry 0 = pt.entry 0 := by
    unfold PairTable.entry
    rw [htab, getD_set_of_ne _ _ _ _ (by omega), getD_set_of_ne _ _ _ _ (by omega)]
  refine ⟨e0, ?_⟩
  unfold PairTable.len
  rw [e0]

theorem claim_C9_witness :
    PairTable.entry ⟨[3, 3, 0, 1]⟩ 0 = PairTable.entry ⟨[3, 0, 0, 0]⟩ 0
    ∧ PairTable.len ⟨[3, 3, 0, 1]⟩ = PairTable.len ⟨[3, 0, 0, 0]⟩ :=
  claim_C9 ⟨[3, 0, 0, 0]⟩ ⟨[3, 3, 0, 1]⟩ 1 3 (by rfl)

/-- Claim C10: PairTable::new panics (modelled as none) exactly when the
requested length exceeds 32767, the maximum i16 value; for any length up
to that bound it returns a table whose len() is the requested length and
in which every position 1..=length is unpaired. -/
theorem claim_C10 (n : ℕ) :
    (32767 < n → PairTable.new n = none)
    ∧ (n ≤ 32767 →
        ∃ pt, PairTable.new n = some pt ∧ pt.len = n
          ∧ ∀ k, 1 ≤ k → k ≤ n → pt.entry k = 0) := by
  constructor
  · intro h
    unfold PairTable.new
    rw [if_neg (by omega)]
  · intro h
    have hnew : PairTable.new n = some ⟨(n : ℤ) :: List.replicate n 0⟩ := by
      unfold PairTable.new
      rw [if_pos h]
    refine ⟨⟨(n : ℤ) :: List.replicate n 0⟩, hnew, ?_, ?_⟩
    · simp [PairTable.len, PairTable.entry, List.getD_cons_zero]
    · intro k h1 h2
      exact pairTable_new_entry_pos n _ hnew k h1

theorem claim_C10_witness :
    ∃ pt, PairTable.new 2 = some pt ∧ pt.len = 2
      ∧ ∀ k, 1 ≤ k → k ≤ 2 → pt.entry k = 0 :=
  (claim_C10 2).2 (by decide)

end Rafft
